import Mathlib

/-!
Verification development for the static-site build pipeline
(`scripts/tools/build.py`, `scripts/tools/sync.py`,
`scripts/models/attrItem.py`).

The Python code is shallowly embedded: filesystem paths are modelled as
lists of absolute path components, Python `dict`s as association lists
with Python's update-in-place-or-append assignment semantics, wall-clock
times as rationals, and code that can raise as `Except`-valued
computations.  Opaque collaborators (the Jinja template renderer, the
HTML minifier) are passed in as function parameters, following the
spec's treatment of them as opaque capabilities.
-/

namespace BuildSite

/-! ## Generic association-list dictionary (Python `dict` semantics)

`assocGet` looks a key up (first occurrence).  `assocSet` models Python
`d[k] = v`: if the key is present its value is replaced in place
(keeping its position), otherwise the pair is appended at the end.
-/

def assocGet {K V : Type} [DecidableEq K] (d : List (K × V)) (k : K) : Option V :=
  match d with
  | [] => none
  | (k', v) :: rest => if k' = k then some v else assocGet rest k

def assocSet {K V : Type} [DecidableEq K] (d : List (K × V)) (k : K) (v : V) :
    List (K × V) :=
  match d with
  | [] => [(k, v)]
  | (k', v') :: rest => if k' = k then (k', v) :: rest else (k', v') :: assocSet rest k v

theorem assocGet_assocSet_self {K V : Type} [DecidableEq K]
    (d : List (K × V)) (k : K) (v : V) : assocGet (assocSet d k v) k = some v := by
  induction d with
  | nil => simp [assocSet, assocGet]
  | cons p rest ih =>
      obtain ⟨k', v'⟩ := p
      by_cases h : k' = k
      · simp [assocSet, assocGet, h]
      · simp [assocSet, assocGet, h, ih]

theorem assocGet_assocSet_ne {K V : Type} [DecidableEq K]
    (d : List (K × V)) (k k' : K) (v : V) (hne : k ≠ k') :
    assocGet (assocSet d k' v) k = assocGet d k := by
  have hne' : ¬ k' = k := fun h => hne h.symm
  induction d with
  | nil => simp [assocSet, assocGet, hne']
  | cons p rest ih =>
      obtain ⟨k₀, v₀⟩ := p
      by_cases h : k₀ = k'
      · subst h
        simp [assocSet, assocGet, hne']
      · by_cases h2 : k₀ = k
        · simp [assocSet, assocGet, h, h2, hne]
        · simp [assocSet, assocGet, h, h2, ih]

theorem assocGet_eq_none_of_not_mem_keys {K V : Type} [DecidableEq K]
    (d : List (K × V)) (k : K) (h : k ∉ d.map Prod.fst) : assocGet d k = none := by
  induction d with
  | nil => rfl
  | cons p rest ih =>
      obtain ⟨k', v'⟩ := p
      simp only [List.map_cons, List.mem_cons] at h
      push_neg at h
      have h1 : ¬ k' = k := fun he => h.1 he.symm
      simp [assocGet, h1, ih h.2]

/-! ## Static-file sync watcher (`_SFSyncWatcher`, identical in
`sync.py` lines 20-83 and `build.py` lines 28-91)

A `FileModifiedEvent` is identified — as by watchdog's
`FileSystemEvent.__eq__`, used for the debounce dictionary keys — by its
source path and destination path (the event type is fixed to `modified`
by the observer's event filter, and `is_directory` is fixed to `False`).
The source path is modelled as absolute path components; the destination
path is kept as a raw string because the code tests
`str(event.dest_path).strip() != ""`.
-/

/-- Python's whitespace set for `str.strip()` with no arguments. -/
def pyIsSpace (c : Char) : Bool :=
  c ∈ [' ', '\t', '\n', '\r', '\x0b', '\x0c']

/-- Python `str.strip()`: remove leading and trailing whitespace. -/
def pyStrip (s : String) : String :=
  String.mk (((s.data.dropWhile pyIsSpace).reverse.dropWhile pyIsSpace).reverse)

structure FsEvent where
  srcPath : List String
  destPath : String
deriving DecidableEq, Repr

structure WatcherState where
  watchDir : List String
  resultDir : List String
  bufferDelay : ℚ
  events : List (FsEvent × ℚ)
deriving DecidableEq, Repr

/-- Observable outcome of one `on_modified` call: a silent debounce
discard, one of the three reported rejections, or a `copy2` write from
the watched path onto the paired path. -/
inductive SyncAction where
  | silent
  | reportDest
  | reportOutside
  | reportNoPair
  | copy (src dst : List String)
deriving DecidableEq, Repr

/-- `Path.is_relative_to`: the first list is a leading run of the second
(absolute paths as component lists). -/
def underDir : List String → List String → Bool
  | [], _ => true
  | _ :: _, [] => false
  | r :: rs, p :: ps => r == p && underDir rs ps

/-- The paired path in the result tree: the event path with the watch
root stripped, re-rooted at the result root
(`self.resultDir / srcPath.relative_to(self.watchDir)`). -/
def pairedPath (st : WatcherState) (e : FsEvent) : List String :=
  st.resultDir ++ e.srcPath.drop st.watchDir.length

/-- Body of `on_modified` after the debounce gate has been passed:
record the event time, then run the three safety checks in source
order, then copy.  `existing` is the set of paths present on disk
(queried by `pairedFilePath.exists()`). -/
def processAdmitted (st : WatcherState) (existing : List (List String))
    (e : FsEvent) (currentTime : ℚ) : WatcherState × SyncAction :=
  let st' : WatcherState := { st with events := assocSet st.events e currentTime }
  if pyStrip e.destPath ≠ "" then
    (st', SyncAction.reportDest)
  else if ¬ underDir st.watchDir e.srcPath then
    (st', SyncAction.reportOutside)
  else if pairedPath st e ∈ existing then
    (st', SyncAction.copy e.srcPath (pairedPath st e))
  else
    (st', SyncAction.reportNoPair)

/-- `_SFSyncWatcher.on_modified`: debounce gate first (an identical
event seen within `bufferDelay` returns immediately, before the
timestamp-recording line), then the admitted-event body. -/
def on_modified (st : WatcherState) (existing : List (List String))
    (e : FsEvent) (currentTime : ℚ) : WatcherState × SyncAction :=
  match assocGet st.events e with
  | some lastTime =>
      if currentTime - lastTime < st.bufferDelay then
        (st, SyncAction.silent)
      else
        processAdmitted st existing e currentTime
  | none => processAdmitted st existing e currentTime

/-- Run a timed sequence of events through the handler, logging each
event with the action it produced. -/
def runEvents (st : WatcherState) (existing : List (List String)) :
    List (FsEvent × ℚ) → WatcherState × List (FsEvent × SyncAction)
  | [] => (st, [])
  | (e, t) :: rest =>
      let step := on_modified st existing e t
      let tail := runEvents step.1 existing rest
      (tail.1, (e, step.2) :: tail.2)

def SyncAction.isCopy : SyncAction → Bool
  | SyncAction.copy _ _ => true
  | _ => false

/-- Number of filesystem copies performed for occurrences of event `e`
in a run log. -/
def copiesFor (e : FsEvent) (log : List (FsEvent × SyncAction)) : Nat :=
  (log.filter (fun p => p.1 == e && p.2.isCopy)).length

/-! ### Basic facts about the handler -/

theorem processAdmitted_fst (st : WatcherState) (ex : List (List String))
    (e : FsEvent) (t : ℚ) :
    (processAdmitted st ex e t).1 = { st with events := assocSet st.events e t } := by
  unfold processAdmitted
  repeat' split
  all_goals rfl

theorem processAdmitted_ne_silent (st : WatcherState) (ex : List (List String))
    (e : FsEvent) (t : ℚ) : (processAdmitted st ex e t).2 ≠ SyncAction.silent := by
  unfold processAdmitted
  repeat' split
  all_goals simp

theorem on_modified_cases (st : WatcherState) (ex : List (List String))
    (e : FsEvent) (t : ℚ) :
    on_modified st ex e t = (st, SyncAction.silent) ∨
      on_modified st ex e t = processAdmitted st ex e t := by
  unfold on_modified
  cases h : assocGet st.events e with
  | none => exact Or.inr rfl
  | some lastTime =>
      by_cases hb : t - lastTime < st.bufferDelay
      · exact Or.inl (by simp [hb])
      · exact Or.inr (by simp [hb])

theorem on_modified_of_unseen (st : WatcherState) (ex : List (List String))
    (e : FsEvent) (t : ℚ) (h : assocGet st.events e = none) :
    on_modified st ex e t = processAdmitted st ex e t := by
  unfold on_modified
  rw [h]

theorem on_modified_eq_processAdmitted_of_ne_silent (st : WatcherState)
    (ex : List (List String)) (e : FsEvent) (t : ℚ)
    (h : (on_modified st ex e t).2 ≠ SyncAction.silent) :
    on_modified st ex e t = processAdmitted st ex e t := by
  rcases on_modified_cases st ex e t with hc | hc
  · rw [hc] at h
    simp at h
  · exact hc

theorem processAdmitted_copy_mem (st : WatcherState) (ex : List (List String))
    (e : FsEvent) (t : ℚ) (src dst : List String)
    (h : (processAdmitted st ex e t).2 = SyncAction.copy src dst) :
    dst ∈ ex ∧ dst = pairedPath st e ∧ src = e.srcPath ∧ pyStrip e.destPath = "" := by
  unfold processAdmitted at h
  split at h
  · simp at h
  · split at h
    · simp at h
    · split at h
      · simp only [SyncAction.copy.injEq] at h
        rename_i hdest hunder hpair
        refine ⟨h.2 ▸ hpair, h.2.symm, h.1.symm, ?_⟩
        exact not_ne_iff.mp hdest
      · simp at h

/-- The map entry for a different event is untouched by one handler
call. -/
theorem on_modified_preserves_other (st : WatcherState) (ex : List (List String))
    (e' : FsEvent) (t : ℚ) (e : FsEvent) (h : e ≠ e') :
    assocGet (on_modified st ex e' t).1.events e = assocGet st.events e := by
  rcases on_modified_cases st ex e' t with hc | hc
  · rw [hc]
  · rw [hc, processAdmitted_fst]
    exact assocGet_assocSet_ne st.events e e' t h

/-- A repeat of a seen event within the buffer window is silently
ignored and the state is untouched. -/
theorem on_modified_silent (st : WatcherState) (ex : List (List String))
    (e : FsEvent) (t lastTime : ℚ)
    (h1 : assocGet st.events e = some lastTime)
    (h2 : t - lastTime < st.bufferDelay) :
    on_modified st ex e t = (st, SyncAction.silent) := by
  unfold on_modified
  rw [h1]
  simp [h2]

/-! ### Concrete fixture used by the witnesses below -/

def sampleEvent : FsEvent := { srcPath := ["dist", "style.css"], destPath := "" }

def sampleState : WatcherState :=
  { watchDir := ["dist"], resultDir := ["src"], bufferDelay := 2, events := [] }

def sampleStateSeen : WatcherState :=
  { sampleState with events := [(sampleEvent, 0)] }

/-! ### Claim C2 -/

/-- C2 (amended): if the identical event was seen before and
`t - lastSeen < bufferDelay`, the handler discards the event with no
filesystem write and no report, and leaves the whole watcher state —
including the stored `lastSeen` timestamp — unchanged (the timestamp is
only refreshed when the event passes the debounce gate). -/
theorem debounce_silent_state_unchanged (st : WatcherState) (ex : List (List String))
    (e : FsEvent) (t lastTime : ℚ)
    (h1 : assocGet st.events e = some lastTime)
    (h2 : t - lastTime < st.bufferDelay) :
    on_modified st ex e t = (st, SyncAction.silent) :=
  on_modified_silent st ex e t lastTime h1 h2

theorem debounce_silent_state_unchanged_witness :
    on_modified sampleStateSeen [] sampleEvent 1 = (sampleStateSeen, SyncAction.silent) :=
  debounce_silent_state_unchanged sampleStateSeen [] sampleEvent 1 0
    (by simp [sampleStateSeen, sampleState, assocGet]) (by norm_num [sampleStateSeen, sampleState])

/-- C2 counterexample: the claim says the debounced discard still
refreshes the stored `lastSeen` to `t`.  In the code the early `return`
happens before the `self.events[event] = currentTime` line, so with
`lastSeen = 0`, `bufferDelay = 2` and a repeat of the same event at
`t = 1` the discard happens but the stored timestamp stays `0`, not
`1`. -/
theorem debounce_refresh_cex :
    (on_modified sampleStateSeen [] sampleEvent 1).2 = SyncAction.silent
  ∧ assocGet (on_modified sampleStateSeen [] sampleEvent 1).1.events sampleEvent = some 0
  ∧ assocGet (on_modified sampleStateSeen [] sampleEvent 1).1.events sampleEvent ≠ some 1 := by
  have hget : assocGet sampleStateSeen.events sampleEvent = some 0 := by
    simp [sampleStateSeen, sampleState, assocGet]
  have hrun : on_modified sampleStateSeen [] sampleEvent 1 = (sampleStateSeen, SyncAction.silent) := by
    unfold on_modified
    rw [hget]
    norm_num [sampleStateSeen, sampleState]
  rw [hrun]
  refine ⟨rfl, hget, ?_⟩
  rw [hget]
  norm_num

/-! ### Claim C3 -/

/-- C3: the watcher performs a filesystem write only when the paired
path (the event path re-rooted from the watch root into the result
root) already exists: every copy action targets an existing paired
path; if the paired path does not exist no copy is possible; and an
event carrying a non-empty (after whitespace stripping, as the code
tests) destination path is never copied regardless of pairing.  Hence
the watcher never creates a file that did not already exist in the
result tree. -/
theorem sync_writes_require_existing_pair (st : WatcherState) (ex : List (List String))
    (e : FsEvent) (t : ℚ) :
    (∀ src dst, (on_modified st ex e t).2 = SyncAction.copy src dst →
        dst ∈ ex ∧ dst = pairedPath st e ∧ src = e.srcPath)
  ∧ (pairedPath st e ∉ ex →
        ∀ src dst, (on_modified st ex e t).2 ≠ SyncAction.copy src dst)
  ∧ (pyStrip e.destPath ≠ "" →
        ∀ src dst, (on_modified st ex e t).2 ≠ SyncAction.copy src dst) := by
  have hmain : ∀ src dst, (on_modified st ex e t).2 = SyncAction.copy src dst →
      dst ∈ ex ∧ dst = pairedPath st e ∧ src = e.srcPath ∧ pyStrip e.destPath = "" := by
    intro src dst h
    rcases on_modified_cases st ex e t with hc | hc
    · rw [hc] at h
      exact absurd h (by simp)
    · rw [hc] at h
      exact processAdmitted_copy_mem st ex e t src dst h
  refine ⟨fun src dst h => ⟨(hmain src dst h).1, (hmain src dst h).2.1, (hmain src dst h).2.2.1⟩, ?_, ?_⟩
  · intro hp src dst h
    rcases hmain src dst h with ⟨h1, h2, _, _⟩
    exact hp (h2 ▸ h1)
  · intro hd src dst h
    exact hd (hmain src dst h).2.2.2

theorem sync_writes_require_existing_pair_witness :
    (on_modified sampleState [] sampleEvent 0).2 ≠
        SyncAction.copy ["dist", "style.css"] ["src", "style.css"]
  ∧ (on_modified sampleState [["src", "style.css"]]
        { srcPath := ["dist", "style.css"], destPath := "dist/moved.css" } 0).2 ≠
        SyncAction.copy ["dist", "style.css"] ["src", "style.css"] :=
  ⟨(sync_writes_require_existing_pair sampleState [] sampleEvent 0).2.1
      (by simp) ["dist", "style.css"] ["src", "style.css"],
   (sync_writes_require_existing_pair sampleState [["src", "style.css"]]
      { srcPath := ["dist", "style.css"], destPath := "dist/moved.css" } 0).2.2
      (by decide) ["dist", "style.css"] ["src", "style.css"]⟩

/-! ### Claim C10 -/

/-- C10: an event that passes the debounce gate has its timestamp
recorded in the debounce map before the safety checks run, so after a
safety rejection (destination-path, out-of-root or missing-pair report)
the map holds the rejection time, and an identical event repeated
within `bufferDelay` is discarded silently: no report and no
filesystem write, with the state unchanged. -/
theorem safety_reject_then_repeat_silent (st : WatcherState) (ex : List (List String))
    (e : FsEvent) (t t' : ℚ)
    (hrej : (on_modified st ex e t).2 = SyncAction.reportDest ∨
            (on_modified st ex e t).2 = SyncAction.reportOutside ∨
            (on_modified st ex e t).2 = SyncAction.reportNoPair)
    (ht : t' - t < st.bufferDelay) :
    assocGet (on_modified st ex e t).1.events e = some t
  ∧ on_modified (on_modified st ex e t).1 ex e t' =
      ((on_modified st ex e t).1, SyncAction.silent) := by
  have hns : (on_modified st ex e t).2 ≠ SyncAction.silent := by
    rcases hrej with h | h | h <;> simp [h]
  have heq := on_modified_eq_processAdmitted_of_ne_silent st ex e t hns
  have hst : (on_modified st ex e t).1 = { st with events := assocSet st.events e t } := by
    rw [heq]
    exact processAdmitted_fst st ex e t
  have hget : assocGet (on_modified st ex e t).1.events e = some t := by
    rw [hst]
    exact assocGet_assocSet_self st.events e t
  refine ⟨hget, ?_⟩
  have hbd : (on_modified st ex e t).1.bufferDelay = st.bufferDelay := by
    rw [hst]
  exact on_modified_silent _ ex e t' t hget (by rw [hbd]; exact ht)

theorem safety_reject_then_repeat_silent_witness :
    assocGet (on_modified sampleState [] sampleEvent 0).1.events sampleEvent = some 0
  ∧ on_modified (on_modified sampleState [] sampleEvent 0).1 [] sampleEvent 1 =
      ((on_modified sampleState [] sampleEvent 0).1, SyncAction.silent) :=
  safety_reject_then_repeat_silent sampleState [] sampleEvent 0 1
    (Or.inr (Or.inr (by decide)))
    (by norm_num [sampleState])

/-! ### Claim C4 -/

/-- One handler call never changes the configuration fields, only the
debounce map. -/
theorem on_modified_preserves_config (st : WatcherState) (ex : List (List String))
    (e : FsEvent) (t : ℚ) :
    (on_modified st ex e t).1.watchDir = st.watchDir ∧
    (on_modified st ex e t).1.resultDir = st.resultDir ∧
    (on_modified st ex e t).1.bufferDelay = st.bufferDelay := by
  rcases on_modified_cases st ex e t with hc | hc <;> rw [hc]
  · exact ⟨rfl, rfl, rfl⟩
  · rw [processAdmitted_fst]
    exact ⟨rfl, rfl, rfl⟩

theorem copiesFor_cons_not_copy (e e' : FsEvent) (a : SyncAction)
    (log : List (FsEvent × SyncAction)) (h : a.isCopy = false) :
    copiesFor e ((e', a) :: log) = copiesFor e log := by
  simp [copiesFor, List.filter_cons, h]

theorem copiesFor_cons_other (e e' : FsEvent) (a : SyncAction)
    (log : List (FsEvent × SyncAction)) (h : e' ≠ e) :
    copiesFor e ((e', a) :: log) = copiesFor e log := by
  simp [copiesFor, List.filter_cons, h]

theorem copiesFor_cons_le (e e' : FsEvent) (a : SyncAction)
    (log : List (FsEvent × SyncAction)) :
    copiesFor e ((e', a) :: log) ≤ 1 + copiesFor e log := by
  unfold copiesFor
  rw [List.filter_cons]
  split
  · simp only [List.length_cons]
    omega
  · omega

/-- Once the debounce map holds a timestamp `m ≥ t₀` for `e`, no
occurrence of `e` strictly before `t₀ + bufferDelay` can copy (each is
silently discarded and leaves the map entry alone). -/
theorem copiesFor_zero_of_recent (ex : List (List String)) (e : FsEvent) (t₀ δ : ℚ) :
    ∀ (trace : List (FsEvent × ℚ)) (st : WatcherState) (m : ℚ),
      st.bufferDelay = δ →
      assocGet st.events e = some m → t₀ ≤ m →
      (∀ q ∈ trace, q.1 = e → q.2 < t₀ + δ) →
      copiesFor e (runEvents st ex trace).2 = 0 := by
  intro trace
  induction trace with
  | nil => intro st m _ _ _ _; rfl
  | cons q rest ih =>
      intro st m hδ hget hm hwin
      obtain ⟨e', t⟩ := q
      by_cases he : e' = e
      · subst he
        have htlt : t < t₀ + δ := hwin (e', t) (by simp) rfl
        have hsil : on_modified st ex e' t = (st, SyncAction.silent) := by
          refine on_modified_silent st ex e' t m hget ?_
          rw [hδ]
          linarith
        have hsil1 : (on_modified st ex e' t).1 = st := by rw [hsil]
        have hsil2 : (on_modified st ex e' t).2 = SyncAction.silent := by rw [hsil]
        show copiesFor e' ((e', (on_modified st ex e' t).2) :: (runEvents (on_modified st ex e' t).1 ex rest).2) = 0
        rw [hsil1, hsil2, copiesFor_cons_not_copy e' e' SyncAction.silent _ rfl]
        exact ih st m hδ hget hm (fun q hq hq1 => hwin q (by simp [hq]) hq1)
      · show copiesFor e ((e', (on_modified st ex e' t).2) :: (runEvents (on_modified st ex e' t).1 ex rest).2) = 0
        rw [copiesFor_cons_other _ _ _ _ he]
        refine ih (on_modified st ex e' t).1 m ?_ ?_ hm
          (fun q hq hq1 => hwin q (by simp [hq]) hq1)
        · rw [(on_modified_preserves_config st ex e' t).2.2, hδ]
        · rw [on_modified_preserves_other st ex e' t e (fun h => he h.symm)]
          exact hget

/-- Starting with `e` unseen, a whole trace of events lying inside one
buffer window produces at most one copy for `e`. -/
theorem copiesFor_le_one_in_window (ex : List (List String)) (e : FsEvent) (t₀ δ : ℚ) :
    ∀ (trace : List (FsEvent × ℚ)) (st : WatcherState),
      st.bufferDelay = δ →
      assocGet st.events e = none →
      (∀ q ∈ trace, q.1 = e → t₀ ≤ q.2 ∧ q.2 < t₀ + δ) →
      copiesFor e (runEvents st ex trace).2 ≤ 1 := by
  intro trace
  induction trace with
  | nil => intro st _ _ _; simp [runEvents, copiesFor]
  | cons q rest ih =>
      intro st hδ hnone hwin
      obtain ⟨e', t⟩ := q
      by_cases he : e' = e
      · subst he
        have hwq := hwin (e', t) (by simp) rfl
        have hrun : on_modified st ex e' t = processAdmitted st ex e' t :=
          on_modified_of_unseen st ex e' t hnone
        have hst1 : (on_modified st ex e' t).1 =
            { st with events := assocSet st.events e' t } := by
          rw [hrun, processAdmitted_fst]
        have hzero : copiesFor e' (runEvents (on_modified st ex e' t).1 ex rest).2 = 0 := by
          refine copiesFor_zero_of_recent ex e' t₀ δ rest (on_modified st ex e' t).1 t ?_ ?_ hwq.1
            (fun q hq hq1 => (hwin q (by simp [hq]) hq1).2)
          · rw [(on_modified_preserves_config st ex e' t).2.2, hδ]
          · rw [hst1]
            exact assocGet_assocSet_self st.events e' t
        show copiesFor e' ((e', (on_modified st ex e' t).2) :: (runEvents (on_modified st ex e' t).1 ex rest).2) ≤ 1
        calc copiesFor e' ((e', (on_modified st ex e' t).2) :: (runEvents (on_modified st ex e' t).1 ex rest).2)
            ≤ 1 + copiesFor e' (runEvents (on_modified st ex e' t).1 ex rest).2 :=
              copiesFor_cons_le _ _ _ _
          _ = 1 := by rw [hzero]
      · show copiesFor e ((e', (on_modified st ex e' t).2) :: (runEvents (on_modified st ex e' t).1 ex rest).2) ≤ 1
        rw [copiesFor_cons_other _ _ _ _ he]
        refine ih (on_modified st ex e' t).1 ?_ ?_
          (fun q hq hq1 => hwin q (by simp [hq]) hq1)
        · rw [(on_modified_preserves_config st ex e' t).2.2, hδ]
        · rw [on_modified_preserves_other st ex e' t e (fun h => he h.symm)]
          exact hnone

/-- C4: at most one copy is performed per debounce window per path, and
two modify events for the same path within `bufferDelay` seconds of
each other (the first one admitted and copyable) produce exactly one
copy. -/
theorem sync_one_copy_per_debounce_window :
    (∀ (st : WatcherState) (ex : List (List String)) (e : FsEvent) (t₀ : ℚ)
        (trace : List (FsEvent × ℚ)),
        assocGet st.events e = none →
        (∀ q ∈ trace, q.1 = e → t₀ ≤ q.2 ∧ q.2 < t₀ + st.bufferDelay) →
        copiesFor e (runEvents st ex trace).2 ≤ 1)
  ∧ (∀ (st : WatcherState) (ex : List (List String)) (e : FsEvent) (t₁ t₂ : ℚ),
        assocGet st.events e = none →
        pyStrip e.destPath = "" →
        underDir st.watchDir e.srcPath = true →
        pairedPath st e ∈ ex →
        t₂ - t₁ < st.bufferDelay →
        copiesFor e (runEvents st ex [(e, t₁), (e, t₂)]).2 = 1) := by
  constructor
  · intro st ex e t₀ trace hnone hwin
    exact copiesFor_le_one_in_window ex e t₀ st.bufferDelay trace st rfl hnone hwin
  · intro st ex e t₁ t₂ hnone hdest hunder hpair hdt
    have h1 : on_modified st ex e t₁ =
        ({ st with events := assocSet st.events e t₁ },
          SyncAction.copy e.srcPath (pairedPath st e)) := by
      rw [on_modified_of_unseen st ex e t₁ hnone]
      unfold processAdmitted
      rw [if_neg (by simp [hdest]), if_neg (by simp [hunder]), if_pos hpair]
    have h2 : on_modified { st with events := assocSet st.events e t₁ } ex e t₂ =
        ({ st with events := assocSet st.events e t₁ }, SyncAction.silent) := by
      refine on_modified_silent _ ex e t₂ t₁ ?_ hdt
      exact assocGet_assocSet_self st.events e t₁
    show copiesFor e ((e, (on_modified st ex e t₁).2) ::
        (runEvents (on_modified st ex e t₁).1 ex [(e, t₂)]).2) = 1
    rw [h1]
    show copiesFor e ((e, SyncAction.copy e.srcPath (pairedPath st e)) ::
        (e, (on_modified { st with events := assocSet st.events e t₁ } ex e t₂).2) ::
        (runEvents (on_modified { st with events := assocSet st.events e t₁ } ex e t₂).1 ex []).2) = 1
    rw [h2]
    simp [copiesFor, List.filter_cons, SyncAction.isCopy, runEvents]

theorem sync_one_copy_per_debounce_window_witness :
    copiesFor sampleEvent
      (runEvents sampleState [] [(sampleEvent, 0), (sampleEvent, 1)]).2 ≤ 1
  ∧ copiesFor sampleEvent
      (runEvents sampleState [["src", "style.css"]]
        [(sampleEvent, 0), (sampleEvent, 1)]).2 = 1 :=
  ⟨sync_one_copy_per_debounce_window.1 sampleState [] sampleEvent 0
      [(sampleEvent, 0), (sampleEvent, 1)] rfl
      (by
        intro q hq hq1
        fin_cases hq <;> norm_num [sampleState]),
   sync_one_copy_per_debounce_window.2 sampleState [["src", "style.css"]] sampleEvent 0 1
      rfl rfl (by decide) (by decide) (by norm_num [sampleState])⟩

/-! ## Build pipeline sequencing (`BuildTool.build`, build.py lines 250-278)

`build` calls `_processFiles`, then `_updateSiteWebManifest`, then
`_buildAttributionsPage`, then `_buildSitemap`, as four plain statements
with no `try`/`except` around any of them: a Python exception raised in
one step propagates out of `build` and the following steps never run.
Each step is embedded as an `Except`-valued computation (its outcome),
and `buildPipeline` is the straight-line sequencing of the four calls,
instrumented with the list of steps that were entered. -/

inductive BuildStep where
  | processFiles
  | manifest
  | attributions
  | sitemap
deriving DecidableEq, Repr

def buildPipeline (pf fm fa fs : Except String Unit) :
    List BuildStep × Option String :=
  match pf with
  | Except.error e => ([BuildStep.processFiles], some e)
  | Except.ok _ =>
    match fm with
    | Except.error e => ([BuildStep.processFiles, BuildStep.manifest], some e)
    | Except.ok _ =>
      match fa with
      | Except.error e =>
          ([BuildStep.processFiles, BuildStep.manifest, BuildStep.attributions], some e)
      | Except.ok _ =>
        match fs with
        | Except.error e =>
            ([BuildStep.processFiles, BuildStep.manifest, BuildStep.attributions,
              BuildStep.sitemap], some e)
        | Except.ok _ =>
            ([BuildStep.processFiles, BuildStep.manifest, BuildStep.attributions,
              BuildStep.sitemap], none)

/-! ### Claim C1 -/

/-- C1 counterexample: the claim says an error raised inside one
finalizer is reported but not propagated, so the remaining finalizers
still run.  With the manifest patcher raising (e.g. the manifest file
holds malformed JSON, so `json.load` raises), `build` stops there: the
attributions and sitemap builders never run and the error propagates
out of the build. -/
theorem finalizer_error_propagates_cex :
    buildPipeline (Except.ok ()) (Except.error "malformed site.webmanifest JSON")
        (Except.ok ()) (Except.ok ()) =
      ([BuildStep.processFiles, BuildStep.manifest], some "malformed site.webmanifest JSON")
  ∧ BuildStep.attributions ∉
      (buildPipeline (Except.ok ()) (Except.error "malformed site.webmanifest JSON")
        (Except.ok ()) (Except.ok ())).1
  ∧ BuildStep.sitemap ∉
      (buildPipeline (Except.ok ()) (Except.error "malformed site.webmanifest JSON")
        (Except.ok ()) (Except.ok ())).1
  ∧ (buildPipeline (Except.ok ()) (Except.error "malformed site.webmanifest JSON")
        (Except.ok ()) (Except.ok ())).2 ≠ none := by
  refine ⟨rfl, ?_, ?_, ?_⟩ <;> decide

/-- C1 (amended): the three finalizers run after the tree walk in the
fixed order manifest patcher, attributions builder, sitemap builder,
but they are not independently error-wrapped: when every step succeeds
all three finalizers run in that order, and an error raised inside one
finalizer propagates out of the build, so the remaining finalizers do
not run. -/
theorem finalizer_fixed_order_and_propagation (pf fm fa fs : Except String Unit)
    (e : String) :
    ((buildPipeline pf fm fa fs).2 = none →
      (buildPipeline pf fm fa fs).1 =
        [BuildStep.processFiles, BuildStep.manifest, BuildStep.attributions,
          BuildStep.sitemap])
  ∧ (pf = Except.ok () → fm = Except.error e →
      buildPipeline pf fm fa fs = ([BuildStep.processFiles, BuildStep.manifest], some e))
  ∧ (pf = Except.ok () → fm = Except.ok () → fa = Except.error e →
      buildPipeline pf fm fa fs =
        ([BuildStep.processFiles, BuildStep.manifest, BuildStep.attributions], some e)) := by
  refine ⟨?_, ?_, ?_⟩
  · intro h
    cases pf with
    | error ep => simp [buildPipeline] at h
    | ok u =>
      cases fm with
      | error em => simp [buildPipeline] at h
      | ok u2 =>
        cases fa with
        | error ea => simp [buildPipeline] at h
        | ok u3 =>
          cases fs with
          | error es => simp [buildPipeline] at h
          | ok u4 => rfl
  · intro hpf hfm
    subst hpf
    subst hfm
    rfl
  · intro hpf hfm hfa
    subst hpf
    subst hfm
    subst hfa
    rfl

theorem finalizer_fixed_order_and_propagation_witness :
    buildPipeline (Except.ok ()) (Except.ok ()) (Except.error "attributions file unreadable")
        (Except.ok ()) =
      ([BuildStep.processFiles, BuildStep.manifest, BuildStep.attributions],
        some "attributions file unreadable") :=
  (finalizer_fixed_order_and_propagation (Except.ok ()) (Except.ok ())
      (Except.error "attributions file unreadable") (Except.ok ())
      "attributions file unreadable").2.2 rfl rfl rfl

/-! ## Render context builder (`BuildTool._getStandardJinjaPayload`,
build.py lines 301-321)

The Python dict literal
`{**socialLinks, "rootUrl": ..., "pagePath": ..., "cacheVersion": ..., **overrides}`
is sequential insertion into a fresh dict: first the social-link
defaults, then the three fixed fields, then the user overrides, each
insertion overwriting any earlier value for the same key.  Values are
kept opaque (`V`): the merge discipline does not depend on them. -/

def assocSetAll {K V : Type} [DecidableEq K] (d : List (K × V)) (kvs : List (K × V)) :
    List (K × V) :=
  kvs.foldl (fun acc p => assocSet acc p.1 p.2) d

def optOr {α : Type} (a b : Option α) : Option α :=
  match a with
  | some v => some v
  | none => b

def nodupKeys {K V : Type} (d : List (K × V)) : Prop :=
  (d.map Prod.fst).Nodup

def getStandardJinjaPayload {V : Type} (socialLinks overrides : List (String × V))
    (rootUrl pagePath cacheVersion : V) : List (String × V) :=
  assocSetAll
    (assocSetAll (assocSetAll [] socialLinks)
      [("rootUrl", rootUrl), ("pagePath", pagePath), ("cacheVersion", cacheVersion)])
    overrides

theorem optOr_none_right {α : Type} (a : Option α) : optOr a none = a := by
  cases a <;> rfl

theorem optOr_isSome {α : Type} (a b : Option α) :
    (optOr a b).isSome = (a.isSome || b.isSome) := by
  cases a <;> cases b <;> rfl

/-- Lookup after inserting a whole dict (with distinct keys, as a
Python dict always has): the inserted layer shadows the base layer. -/
theorem assocGet_assocSetAll {K V : Type} [DecidableEq K]
    (kvs : List (K × V)) :
    ∀ (d : List (K × V)), nodupKeys kvs →
      ∀ k, assocGet (assocSetAll d kvs) k = optOr (assocGet kvs k) (assocGet d k) := by
  induction kvs with
  | nil => intro d _ k; rfl
  | cons p rest ih =>
      intro d hnd k
      obtain ⟨k₁, v₁⟩ := p
      have hstep : assocSetAll d ((k₁, v₁) :: rest) = assocSetAll (assocSet d k₁ v₁) rest := rfl
      have hnd' : nodupKeys rest := by
        simpa [nodupKeys] using (List.nodup_cons.mp hnd).2
      have hk₁ : k₁ ∉ rest.map Prod.fst := by
        simpa [nodupKeys] using (List.nodup_cons.mp hnd).1
      rw [hstep, ih (assocSet d k₁ v₁) hnd' k]
      by_cases hk : k₁ = k
      · subst hk
        rw [assocGet_eq_none_of_not_mem_keys rest k₁ hk₁]
        simp [assocGet, optOr, assocGet_assocSet_self]
      · simp [assocGet, hk, assocGet_assocSet_ne d k k₁ v₁ (fun h => hk h.symm)]

/-! ### Claim C6 -/

/-- C6: the render context is the layered merge, lowest to highest
precedence, of the social-link defaults, the fixed fields `rootUrl`,
`pagePath`, `cacheVersion`, and the user overrides: every lookup is
served by the highest-precedence layer that carries the key (higher
layers silently shadow lower ones), and the result always contains the
keys `rootUrl` and `cacheVersion`. -/
theorem payload_layered_merge {V : Type} (socialLinks overrides : List (String × V))
    (rootUrl pagePath cacheVersion : V)
    (hs : nodupKeys socialLinks) (ho : nodupKeys overrides) :
    (∀ k, assocGet (getStandardJinjaPayload socialLinks overrides rootUrl pagePath cacheVersion) k =
        optOr (assocGet overrides k)
          (optOr (assocGet [("rootUrl", rootUrl), ("pagePath", pagePath),
              ("cacheVersion", cacheVersion)] k)
            (assocGet socialLinks k)))
  ∧ (assocGet (getStandardJinjaPayload socialLinks overrides rootUrl pagePath cacheVersion)
        "rootUrl").isSome = true
  ∧ (assocGet (getStandardJinjaPayload socialLinks overrides rootUrl pagePath cacheVersion)
        "cacheVersion").isSome = true := by
  have hfix : nodupKeys ([("rootUrl", rootUrl), ("pagePath", pagePath),
      ("cacheVersion", cacheVersion)] : List (String × V)) := by
    simp [nodupKeys]
  have hmain : ∀ k,
      assocGet (getStandardJinjaPayload socialLinks overrides rootUrl pagePath cacheVersion) k =
        optOr (assocGet overrides k)
          (optOr (assocGet [("rootUrl", rootUrl), ("pagePath", pagePath),
              ("cacheVersion", cacheVersion)] k)
            (assocGet socialLinks k)) := by
    intro k
    unfold getStandardJinjaPayload
    rw [assocGet_assocSetAll overrides _ ho k,
        assocGet_assocSetAll _ _ hfix k,
        assocGet_assocSetAll socialLinks _ hs k]
    rw [show (assocGet ([] : List (String × V)) k) = none from rfl, optOr_none_right]
  refine ⟨hmain, ?_, ?_⟩
  · rw [hmain "rootUrl"]
    simp [optOr_isSome, assocGet]
  · rw [hmain "cacheVersion"]
    simp [optOr_isSome, assocGet]

theorem payload_layered_merge_witness :
    (assocGet (getStandardJinjaPayload
        [("substack", "https://mbmcloude.substack.com"), ("rootUrl", "social-shadowed")]
        [("rootUrl", "https://override.example")]
        "https://example.com" "index.html" "241001120000") "rootUrl" =
      some "https://override.example")
  ∧ (assocGet (getStandardJinjaPayload
        [("substack", "https://mbmcloude.substack.com"), ("rootUrl", "social-shadowed")]
        [("rootUrl", "https://override.example")]
        "https://example.com" "index.html" "241001120000") "cacheVersion" =
      some "241001120000")
  ∧ (assocGet (getStandardJinjaPayload
        [("substack", "https://mbmcloude.substack.com"), ("rootUrl", "social-shadowed")]
        [("rootUrl", "https://override.example")]
        "https://example.com" "index.html" "241001120000") "substack" =
      some "https://mbmcloude.substack.com") := by
  have h := payload_layered_merge
    [("substack", "https://mbmcloude.substack.com"), ("rootUrl", "social-shadowed")]
    [("rootUrl", "https://override.example")]
    "https://example.com" "index.html" "241001120000"
    (by simp [nodupKeys]) (by simp [nodupKeys])
  refine ⟨?_, ?_, ?_⟩
  · rw [h.1 "rootUrl"]
    rfl
  · rw [h.1 "cacheVersion"]
    rfl
  · rw [h.1 "substack"]
    rfl

/-! ## Stored root URL (`BuildTool.__init__`, build.py line 135)

`self.rootUrl = rootUrl.rstrip("/")`: Python's `rstrip("/")` removes
every trailing `'/'` character, not just one. -/

def storedRootUrl (rootUrl : String) : String :=
  String.mk ((rootUrl.data.reverse.dropWhile (fun c => c == '/')).reverse)

/-- Modelled from the spec's words, for refinement comparison only:
"the stored rootUrl equals the input with exactly one trailing `'/'`
removed when one is present, and equals the input unchanged
otherwise". -/
def specRootUrlStripOnce (s : String) : String :=
  match s.data.reverse with
  | [] => s
  | c :: rest => if c = '/' then String.mk rest.reverse else s

theorem head?_dropWhile_false {α : Type} (p : α → Bool) (l : List α) :
    ∀ a, (l.dropWhile p).head? = some a → p a = false := by
  induction l with
  | nil => intro a h; simp [List.dropWhile] at h
  | cons x xs ih =>
      intro a h
      rw [List.dropWhile_cons] at h
      by_cases hp : p x
      · rw [if_pos hp] at h
        exact ih a h
      · rw [if_neg hp] at h
        simp only [List.head?_cons, Option.some.injEq] at h
        rw [← h]
        exact Bool.not_eq_true _ |>.mp hp

/-! ### Claim C7 -/

/-- C7 counterexample: with the configured root URL
`"https://example.com//"` the code stores `"https://example.com"`
(all trailing slashes removed by `rstrip("/")`), while the claim's
"exactly one trailing `'/'` removed" would store
`"https://example.com/"`. -/
theorem rootUrl_strip_once_cex :
    storedRootUrl "https://example.com//" = "https://example.com"
  ∧ specRootUrlStripOnce "https://example.com//" = "https://example.com/"
  ∧ storedRootUrl "https://example.com//" ≠
      specRootUrlStripOnce "https://example.com//" := by
  refine ⟨?_, ?_, ?_⟩ <;> decide

/-- C7 (amended): the stored rootUrl is the configured root URL with
all trailing `'/'` characters removed: it never ends in `'/'`, and the
input is exactly the stored value followed by some run of `'/'`
characters.  When the input has at most one trailing slash this agrees
with removing one slash; with several trailing slashes all of them are
removed. -/
theorem rootUrl_strip_all_trailing (s : String) :
    (storedRootUrl s).data.getLast? ≠ some '/'
  ∧ ∃ n, s.data = (storedRootUrl s).data ++ List.replicate n '/' := by
  constructor
  · intro hcontra
    have hdata : (storedRootUrl s).data =
        (s.data.reverse.dropWhile (fun c => c == '/')).reverse := rfl
    rw [hdata, List.getLast?_reverse] at hcontra
    have := head?_dropWhile_false (fun c => c == '/') s.data.reverse '/' hcontra
    simp at this
  · refine ⟨(s.data.reverse.takeWhile (fun c => c == '/')).length, ?_⟩
    have hdata : (storedRootUrl s).data =
        (s.data.reverse.dropWhile (fun c => c == '/')).reverse := rfl
    have hrepl : s.data.reverse.takeWhile (fun c => c == '/') =
        List.replicate (s.data.reverse.takeWhile (fun c => c == '/')).length '/' := by
      refine List.eq_replicate_of_mem ?_
      intro b hb
      have := List.mem_takeWhile_imp hb
      simpa using this
    calc s.data = s.data.reverse.reverse := (List.reverse_reverse _).symm
      _ = (s.data.reverse.takeWhile (fun c => c == '/') ++
            s.data.reverse.dropWhile (fun c => c == '/')).reverse := by
            rw [List.takeWhile_append_dropWhile]
      _ = (s.data.reverse.dropWhile (fun c => c == '/')).reverse ++
            (s.data.reverse.takeWhile (fun c => c == '/')).reverse := by
            rw [List.reverse_append]
      _ = (storedRootUrl s).data ++ List.replicate
            (s.data.reverse.takeWhile (fun c => c == '/')).length '/' := by
            rw [hdata, hrepl, List.reverse_replicate]
            simp

/-! ## Manifest patcher (`BuildTool._updateSiteWebManifest`,
build.py lines 397-420)

A parsed JSON document; the manifest file is a JSON object modelled as
an association list of fields.  `updateSiteWebManifest` receives
`some manifest` when `outputRoot/images/favicon/site.webmanifest`
exists (the parsed content) and `none` when it is absent; in the
absent case the code only prints a report and returns.  The two
`manifest[...] = ...` assignments are `assocSet`s, `name` first, then
`short_name`.  The rewrite uses `json.dump(manifest, f, indent=2)`;
the indentation option is recorded as `manifestJsonIndent`. -/

inductive JVal where
  | str (s : String)
  | num (n : Int)
  | bool (b : Bool)
  | null
  | arr (elems : List JVal)
  | obj (fields : List (String × JVal))

def manifestJsonIndent : Nat := 2

def updateSiteWebManifest (name nameShort : String) :
    Option (List (String × JVal)) → Option (List (String × JVal))
  | some manifest =>
      some (assocSet (assocSet manifest "name" (JVal.str name))
        "short_name" (JVal.str nameShort))
  | none => none

/-! ### Claim C8 -/

/-- C8: when the manifest file exists, the patcher sets exactly the
fields `name` and `short_name` to the configured site name and short
name, leaves every other field unchanged, and rewrites with 2-space
indentation; when the file is absent it reports and continues without
error (no manifest is produced and nothing fails). -/
theorem manifest_patch_fields (name nameShort : String)
    (manifest : List (String × JVal)) (k : String)
    (hk1 : k ≠ "name") (hk2 : k ≠ "short_name") :
    ∃ patched, updateSiteWebManifest name nameShort (some manifest) = some patched
      ∧ assocGet patched "name" = some (JVal.str name)
      ∧ assocGet patched "short_name" = some (JVal.str nameShort)
      ∧ assocGet patched k = assocGet manifest k
      ∧ updateSiteWebManifest name nameShort none = none
      ∧ manifestJsonIndent = 2 := by
  refine ⟨assocSet (assocSet manifest "name" (JVal.str name)) "short_name" (JVal.str nameShort),
    rfl, ?_, ?_, ?_, rfl, rfl⟩
  · rw [assocGet_assocSet_ne _ "name" "short_name" _ (by decide)]
    exact assocGet_assocSet_self manifest "name" (JVal.str name)
  · exact assocGet_assocSet_self _ "short_name" (JVal.str nameShort)
  · rw [assocGet_assocSet_ne _ k "short_name" _ hk2,
        assocGet_assocSet_ne _ k "name" _ hk1]

/-- Witness: the spec's own example — patching
`{"name": "Old", "short_name": "O", "icons": [...]}` with configured
name `"New"` and short name `"N"` yields
`{"name": "New", "short_name": "N", "icons": [...]}` with `icons`
untouched. -/
theorem manifest_patch_fields_witness :
    ∃ patched,
      updateSiteWebManifest "New" "N"
          (some [("name", JVal.str "Old"), ("short_name", JVal.str "O"),
            ("icons", JVal.arr [JVal.obj [("src", JVal.str "favicon.ico")]])]) = some patched
        ∧ assocGet patched "name" = some (JVal.str "New")
        ∧ assocGet patched "short_name" = some (JVal.str "N")
        ∧ assocGet patched "icons" =
            assocGet [("name", JVal.str "Old"), ("short_name", JVal.str "O"),
              ("icons", JVal.arr [JVal.obj [("src", JVal.str "favicon.ico")]])] "icons"
        ∧ updateSiteWebManifest "New" "N" none = none
        ∧ manifestJsonIndent = 2 :=
  manifest_patch_fields "New" "N"
    [("name", JVal.str "Old"), ("short_name", JVal.str "O"),
      ("icons", JVal.arr [JVal.obj [("src", JVal.str "favicon.ico")]])]
    "icons" (by decide) (by decide)

/-! ## File trees and the tree walker (`BuildTool._processFiles`,
build.py lines 323-395)

A filesystem tree: files carry their content and last-modified time
(whole seconds), directories carry their children.  The walker visits a
directory's entries and for each one, in source order: skip if the
entry's name is in the blacklist (before anything else, so a
blacklisted directory is not recursed into), recurse if it is a
directory, render-and-minify if the (lowercased) `Path.suffix` is
`.html` (the rendered file gets a fresh mtime `now`), otherwise copy it
verbatim (`copy2` preserves the mtime). -/

inductive FsTree where
  | file (name : String) (content : String) (mtime : Int)
  | dir (name : String) (children : List FsTree)

def FsTree.name : FsTree → String
  | FsTree.file n _ _ => n
  | FsTree.dir n _ => n

/-- `pathlib.Path.suffix`: the extension of the final component, i.e.
the part from the last dot on, empty when the last dot is the first
character (hidden files) or the final character, or when there is no
dot. -/
def pySuffix (s : String) : String :=
  let l := s.data
  let pre := l.reverse.takeWhile (fun c => c ≠ '.')
  if pre.length + 1 < l.length ∧ 0 < pre.length then String.mk ('.' :: pre.reverse) else ""

/-- Python `str.lower()` (ASCII part, which is all the comparison
`suffix.lower() == ".html"` can depend on). -/
def lowerStr (s : String) : String := String.mk (s.data.map Char.toLower)

mutual

def processEntry (bl : List String) (render : String → String → String)
    (minify : String → String) (now : Int) : FsTree → Option FsTree
  | FsTree.file n c m =>
      if n ∈ bl then none
      else if lowerStr (pySuffix n) = ".html" then
        some (FsTree.file n (minify (render n c)) now)
      else some (FsTree.file n c m)
  | FsTree.dir n cs =>
      if n ∈ bl then none
      else some (FsTree.dir n (processList bl render minify now cs))

def processList (bl : List String) (render : String → String → String)
    (minify : String → String) (now : Int) : List FsTree → List FsTree
  | [] => []
  | t :: ts =>
      match processEntry bl render minify now t with
      | none => processList bl render minify now ts
      | some t2 => t2 :: processList bl render minify now ts

end

mutual

/-- `descends t p`: the component path `p` addresses an entry somewhere
inside `t` (`t` itself for `p = []`). -/
def descends : FsTree → List String → Bool
  | _, [] => true
  | FsTree.file _ _ _, _ :: _ => false
  | FsTree.dir _ cs, c :: rest => descendsList cs c rest

def descendsList : List FsTree → String → List String → Bool
  | [], _, _ => false
  | t :: ts, c, rest => (t.name == c && descends t rest) || descendsList ts c rest

end

mutual

theorem processEntry_clean (bl : List String) (render : String → String → String)
    (minify : String → String) (now : Int) (t t2 : FsTree)
    (h : processEntry bl render minify now t = some t2) :
    t2.name ∉ bl ∧ ∀ p, descends t2 p = true → ∀ c ∈ p, c ∉ bl := by
  cases t with
  | file n c m =>
      rw [processEntry] at h
      by_cases hb : n ∈ bl
      · rw [if_pos hb] at h
        exact absurd h (by simp)
      · rw [if_neg hb] at h
        by_cases hh : lowerStr (pySuffix n) = ".html"
        · rw [if_pos hh] at h
          have ht2 : t2 = FsTree.file n (minify (render n c)) now := (Option.some.inj h).symm
          subst ht2
          refine ⟨hb, ?_⟩
          intro p hp x hx
          cases p with
          | nil => cases hx
          | cons y ys =>
              rw [descends] at hp
              cases hp
        · rw [if_neg hh] at h
          have ht2 : t2 = FsTree.file n c m := (Option.some.inj h).symm
          subst ht2
          refine ⟨hb, ?_⟩
          intro p hp x hx
          cases p with
          | nil => cases hx
          | cons y ys =>
              rw [descends] at hp
              cases hp
  | dir n cs =>
      rw [processEntry] at h
      by_cases hb : n ∈ bl
      · rw [if_pos hb] at h
        exact absurd h (by simp)
      · rw [if_neg hb] at h
        have ht2 : t2 = FsTree.dir n (processList bl render minify now cs) :=
          (Option.some.inj h).symm
        subst ht2
        refine ⟨hb, ?_⟩
        intro p hp x hx
        cases p with
        | nil => cases hx
        | cons y ys =>
            rw [descends] at hp
            have hsub := processList_clean bl render minify now cs y ys hp
            rcases List.mem_cons.mp hx with hx2 | hx2
            · exact hx2 ▸ hsub.1
            · exact hsub.2 x hx2

theorem processList_clean (bl : List String) (render : String → String → String)
    (minify : String → String) (now : Int) (ts : List FsTree) (c : String)
    (rest : List String)
    (h : descendsList (processList bl render minify now ts) c rest = true) :
    c ∉ bl ∧ ∀ x ∈ rest, x ∉ bl := by
  cases ts with
  | nil =>
      rw [processList] at h
      cases h
  | cons t ts2 =>
      rw [processList] at h
      cases he : processEntry bl render minify now t with
      | none =>
          rw [he] at h
          exact processList_clean bl render minify now ts2 c rest h
      | some t2 =>
          rw [he] at h
          rw [descendsList] at h
          rcases Bool.or_eq_true_iff.mp h with h1 | h1
          · rcases Bool.and_eq_true_iff.mp h1 with ⟨hna, hdc⟩
            have hclean := processEntry_clean bl render minify now t t2 he
            have hcn : t2.name = c := by
              simpa using hna
            refine ⟨hcn ▸ hclean.1, ?_⟩
            intro x hx
            exact hclean.2 rest hdc x hx
          · exact processList_clean bl render minify now ts2 c rest h1

end

/-! ### Claim C5 -/

/-- C5: an entry whose name is in the blacklist (exact name match) is
skipped entirely by the tree walker — a blacklisted entry, directory or
not, produces no output node — and no path into the produced output
tree passes through a blacklisted name, so neither a blacklisted entry
nor any of its children appears in the output. -/
theorem blacklist_skipped_entirely (bl : List String)
    (render : String → String → String) (minify : String → String) (now : Int) :
    (∀ t : FsTree, t.name ∈ bl → processEntry bl render minify now t = none)
  ∧ (∀ (ts : List FsTree) (c : String) (rest : List String),
      descendsList (processList bl render minify now ts) c rest = true →
      c ∉ bl ∧ ∀ x ∈ rest, x ∉ bl) := by
  constructor
  · intro t ht
    cases t with
    | file n c m =>
        rw [processEntry]
        rw [if_pos (by simpa [FsTree.name] using ht)]
    | dir n cs =>
        rw [processEntry]
        rw [if_pos (by simpa [FsTree.name] using ht)]
  · intro ts c rest h
    exact processList_clean bl render minify now ts c rest h

theorem blacklist_skipped_entirely_witness :
    processEntry ["private"] (fun _ c => c) (fun c => c) 7
        (FsTree.dir "private" [FsTree.file "inner.html" "x" 0]) = none
  ∧ ("kept.css" ∉ ["private"]
      ∧ ∀ x ∈ ([] : List String), x ∉ ["private"]) :=
  ⟨(blacklist_skipped_entirely ["private"] (fun _ c => c) (fun c => c) 7).1
      (FsTree.dir "private" [FsTree.file "inner.html" "x" 0]) (by decide),
   (blacklist_skipped_entirely ["private"] (fun _ c => c) (fun c => c) 7).2
      [FsTree.file "kept.css" "body" 3,
        FsTree.dir "private" [FsTree.file "inner.html" "x" 0]]
      "kept.css" [] (by decide)⟩

/-! ## Sitemap builder (`BuildTool._buildSitemap`, build.py lines
471-504)

`self.outputDir.glob("**/*.html")` enumerates, anywhere under the
output tree, the entries — of any kind, directories included — whose
final name matches the glob `*.html` (name ends with `".html"`,
case-sensitively).  A directory named e.g. `gallery.html` is yielded
too (and is reachable: `_processFiles` checks `is_dir()` before the
`.html` suffix test, so a source directory with such a name is mirrored
into the output), and `.stat().st_mtime` works on it, so the sitemap
gains an entry for it.  For each globbed entry the code emits
`loc = rootUrl + "/" + relative-posix-path` and `lastmod` = the entry's
`st_mtime` rendered by
`datetime.fromtimestamp(_, utc).strftime("%Y-%m-%d")`.  The rendered
XML is written, without minification, to `outputRoot/sitemap.xml`.

The output tree on disk is modelled by `OutTree`, where every entry —
directories included — carries its `st_mtime`. -/

def startsWithList {α : Type} [BEq α] : List α → List α → Bool
  | [], _ => true
  | _ :: _, [] => false
  | a :: as, b :: bs => a == b && startsWithList as bs

/-- fnmatch of a name against the pattern `*.html`. -/
def htmlGlobMatch (name : String) : Bool :=
  startsWithList ".html".data.reverse name.data.reverse

def natDigit (n : Nat) : Char := Char.ofNat (48 + n)

def pad2 (n : Nat) : String := String.mk [natDigit ((n / 10) % 10), natDigit (n % 10)]

def pad4 (n : Nat) : String :=
  String.mk [natDigit ((n / 1000) % 10), natDigit ((n / 100) % 10),
    natDigit ((n / 10) % 10), natDigit (n % 10)]

/-- `datetime.fromtimestamp(ts, timezone.utc).strftime("%Y-%m-%d")` at
whole-second precision: the proleptic-Gregorian civil date of the day
containing the timestamp (floored division by 86400), written
`YYYY-MM-DD`, via the standard civil-from-days conversion. -/
def formatUtcDate (ts : Int) : String :=
  let days := Int.fdiv ts 86400
  let z := days + 719468
  let era := Int.fdiv z 146097
  let doe := z - era * 146097
  let yoe := Int.fdiv (doe - Int.fdiv doe 1460 + Int.fdiv doe 36524 - Int.fdiv doe 146096) 365
  let y := yoe + era * 400
  let doy := doe - (365 * yoe + Int.fdiv yoe 4 - Int.fdiv yoe 100)
  let mp := Int.fdiv (5 * doy + 2) 153
  let d := doy - Int.fdiv (153 * mp + 2) 5 + 1
  let m := if mp < 10 then mp + 3 else mp - 9
  let y2 := if m ≤ 2 then y + 1 else y
  pad4 y2.toNat ++ "-" ++ pad2 m.toNat ++ "-" ++ pad2 d.toNat

/-- The output tree as it sits on disk when `_buildSitemap` runs:
every entry, directory or file, has a name and an `st_mtime`. -/
inductive OutTree where
  | file (name : String) (content : String) (mtime : Int)
  | dir (name : String) (mtime : Int) (children : List OutTree)

def OutTree.name : OutTree → String
  | OutTree.file n _ _ => n
  | OutTree.dir n _ _ => n

mutual

/-- `glob("**/*.html")` over one entry: the relative paths (with the
entry's own name as first component) and mtimes of every entry — file
or directory — whose name matches the pattern; a matching directory is
yielded itself and is also recursed into. -/
def globHtml : OutTree → List (List String × Int)
  | OutTree.file n _ m => if htmlGlobMatch n then [([n], m)] else []
  | OutTree.dir n m cs =>
      (if htmlGlobMatch n then [([n], m)] else []) ++
        (globHtmlList cs).map (fun q => (n :: q.1, q.2))

def globHtmlList : List OutTree → List (List String × Int)
  | [] => []
  | t :: ts => globHtml t ++ globHtmlList ts

end

mutual

/-- Follow a component path into an entry; `some mtime` when it lands
on any entry, file or directory (`stat` works on both). -/
def statEntry : OutTree → List String → Option Int
  | OutTree.file _ _ m, [] => some m
  | OutTree.file _ _ _, _ :: _ => none
  | OutTree.dir _ m _, [] => some m
  | OutTree.dir _ _ cs, c :: rest => statEntryList cs c rest

def statEntryList : List OutTree → String → List String → Option Int
  | [], _, _ => none
  | t :: ts, c, rest => if t.name == c then statEntry t rest else statEntryList ts c rest

end

/-- Follow a relative path from a directory's children down to any
entry. -/
def entryAtPath (cs : List OutTree) : List String → Option Int
  | [] => none
  | c :: rest => statEntryList cs c rest

mutual

/-- Follow a component path; `some mtime` only when it lands on a
file (used to relate the glob enumeration to the *.html files). -/
def statFileOnly : OutTree → List String → Option Int
  | OutTree.file _ _ m, [] => some m
  | OutTree.file _ _ _, _ :: _ => none
  | OutTree.dir _ _ _, [] => none
  | OutTree.dir _ _ cs, c :: rest => statFileOnlyList cs c rest

def statFileOnlyList : List OutTree → String → List String → Option Int
  | [], _, _ => none
  | t :: ts, c, rest => if t.name == c then statFileOnly t rest else statFileOnlyList ts c rest

end

/-- Follow a relative path from a directory's children down to a
file. -/
def fileAtPath (cs : List OutTree) : List String → Option Int
  | [] => none
  | c :: rest => statFileOnlyList cs c rest

mutual

/-- Real directory trees have distinct sibling names at every level. -/
def wfOut : OutTree → Bool
  | OutTree.file _ _ _ => true
  | OutTree.dir _ _ cs => wfOutList cs

def wfOutList : List OutTree → Bool
  | [] => true
  | t :: ts => wfOut t && ts.all (fun t2 => !(t2.name == t.name)) && wfOutList ts

end

structure SitemapEntry where
  loc : String
  lastmod : String
deriving DecidableEq, Repr

def joinPosix (p : List String) : String := String.intercalate "/" p

def buildSitemapEntries (rootUrl : String) (outputChildren : List OutTree) :
    List SitemapEntry :=
  (globHtmlList outputChildren).map
    (fun q => { loc := rootUrl ++ "/" ++ joinPosix q.1, lastmod := formatUtcDate q.2 })

def sitemapWritePath : List String := ["sitemap.xml"]

/-- The write performed by `_buildSitemap`: target path and content;
the rendered XML is written as-is (no minification pass). -/
def buildSitemapOutput (render : List SitemapEntry → String) (rootUrl : String)
    (outputChildren : List OutTree) : List String × String :=
  (sitemapWritePath, render (buildSitemapEntries rootUrl outputChildren))

theorem statEntryList_mem_names (ts : List OutTree) (c : String) (rest : List String)
    (m : Int) (h : statEntryList ts c rest = some m) : c ∈ ts.map OutTree.name := by
  induction ts with
  | nil =>
      rw [statEntryList] at h
      cases h
  | cons t ts2 ih =>
      rw [statEntryList] at h
      by_cases hn : t.name == c
      · have hc : t.name = c := beq_iff_eq.mp hn
        rw [List.map_cons, ← hc]
        exact List.mem_cons_self _ _
      · rw [if_neg hn] at h
        rw [List.map_cons]
        exact List.mem_cons_of_mem _ (ih h)

mutual

theorem statFileOnly_isEntry (t : OutTree) (p : List String) (m : Int)
    (h : statFileOnly t p = some m) : statEntry t p = some m := by
  cases t with
  | file n c mt =>
      cases p with
      | nil =>
          rw [statFileOnly] at h
          rw [statEntry]
          exact h
      | cons y ys =>
          rw [statFileOnly] at h
          cases h
  | dir n mt cs =>
      cases p with
      | nil =>
          rw [statFileOnly] at h
          cases h
      | cons c2 rest =>
          rw [statFileOnly] at h
          rw [statEntry]
          exact statFileOnlyList_isEntry cs c2 rest m h

theorem statFileOnlyList_isEntry (ts : List OutTree) (c : String) (rest : List String)
    (m : Int) (h : statFileOnlyList ts c rest = some m) :
    statEntryList ts c rest = some m := by
  cases ts with
  | nil =>
      rw [statFileOnlyList] at h
      cases h
  | cons t ts2 =>
      rw [statFileOnlyList] at h
      rw [statEntryList]
      by_cases hn : t.name == c
      · rw [if_pos hn] at h ⊢
        exact statFileOnly_isEntry t rest m h
      · rw [if_neg hn] at h ⊢
        exact statFileOnlyList_isEntry ts2 c rest m h

end

theorem getLastD_cons_of_ne_nil {α : Type} (q : List α) (hq : q ≠ []) (n d : α) :
    (n :: q).getLastD d = q.getLastD d := by
  cases q with
  | nil => exact absurd rfl hq
  | cons x xs => simp [List.getLastD_cons]

mutual

theorem glob_tree_iff (t : OutTree) (hwf : wfOut t = true) (p : List String) (m : Int) :
    (p, m) ∈ globHtml t ↔
      (∃ rest, p = t.name :: rest ∧ statEntry t rest = some m)
        ∧ htmlGlobMatch (p.getLastD "") = true := by
  cases t with
  | file n c mt =>
      rw [globHtml]
      constructor
      · intro hmem
        by_cases hg : htmlGlobMatch n
        · rw [if_pos hg] at hmem
          rcases List.mem_singleton.mp hmem with hpm
          have hp : p = [n] := congrArg Prod.fst hpm
          have hm : m = mt := congrArg Prod.snd hpm
          subst hp
          subst hm
          exact ⟨⟨[], rfl, rfl⟩, by simpa [List.getLastD_cons] using hg⟩
        · rw [if_neg hg] at hmem
          cases hmem
      · rintro ⟨⟨rest, hp, hstat⟩, hglob⟩
        cases rest with
        | nil =>
            have hmt : m = mt := by
              rw [statEntry] at hstat
              exact (Option.some.inj hstat).symm
            subst hmt
            subst hp
            rw [if_pos (by simpa [OutTree.name, List.getLastD_cons] using hglob)]
            exact List.mem_singleton.mpr rfl
        | cons y ys =>
            rw [statEntry] at hstat
            cases hstat
  | dir n mt cs =>
      rw [globHtml]
      have hwfl : wfOutList cs = true := by
        rw [wfOut] at hwf
        exact hwf
      constructor
      · intro hmem
        rcases List.mem_append.mp hmem with hm1 | hm1
        · by_cases hg : htmlGlobMatch n
          · rw [if_pos hg] at hm1
            rcases List.mem_singleton.mp hm1 with hpm
            have hp : p = [n] := congrArg Prod.fst hpm
            have hm : m = mt := congrArg Prod.snd hpm
            subst hp
            subst hm
            exact ⟨⟨[], rfl, rfl⟩, by simpa [List.getLastD_cons] using hg⟩
          · rw [if_neg hg] at hm1
            cases hm1
        · rcases List.mem_map.mp hm1 with ⟨⟨q1, q2⟩, hq, hfq⟩
          have hp : p = n :: q1 := (congrArg Prod.fst hfq).symm
          have hm : m = q2 := (congrArg Prod.snd hfq).symm
          subst hp
          subst hm
          have hiff := (glob_list_iff cs hwfl q1 m).mp hq
          have hq1ne : q1 ≠ [] := by
            intro hnil
            rw [hnil] at hiff
            rw [show entryAtPath cs [] = none from rfl] at hiff
            cases hiff.1
          cases hq1 : q1 with
          | nil => exact absurd hq1 hq1ne
          | cons c r =>
              subst hq1
              refine ⟨⟨c :: r, rfl, ?_⟩, ?_⟩
              · rw [statEntry]
                exact hiff.1
              · rw [getLastD_cons_of_ne_nil (c :: r) (by simp) n ""]
                exact hiff.2
      · rintro ⟨⟨rest, hp, hstat⟩, hglob⟩
        cases rest with
        | nil =>
            have hmt : m = mt := by
              rw [statEntry] at hstat
              exact (Option.some.inj hstat).symm
            subst hmt
            subst hp
            refine List.mem_append.mpr (Or.inl ?_)
            rw [if_pos (by simpa [OutTree.name, List.getLastD_cons] using hglob)]
            exact List.mem_singleton.mpr rfl
        | cons c r =>
            rw [statEntry] at hstat
            subst hp
            have hglob2 : htmlGlobMatch ((c :: r).getLastD "") = true := by
              rw [getLastD_cons_of_ne_nil (c :: r) (by simp)
                (OutTree.name (OutTree.dir n mt cs)) ""] at hglob
              exact hglob
            have hmem2 : (c :: r, m) ∈ globHtmlList cs :=
              (glob_list_iff cs hwfl (c :: r) m).mpr ⟨hstat, hglob2⟩
            refine List.mem_append.mpr (Or.inr ?_)
            exact List.mem_map.mpr ⟨(c :: r, m), hmem2, rfl⟩

theorem glob_list_iff (ts : List OutTree) (hwf : wfOutList ts = true) (p : List String)
    (m : Int) :
    (p, m) ∈ globHtmlList ts ↔
      entryAtPath ts p = some m ∧ htmlGlobMatch (p.getLastD "") = true := by
  cases ts with
  | nil =>
      rw [globHtmlList]
      constructor
      · intro hmem
        cases hmem
      · rintro ⟨hstat, _⟩
        cases p with
        | nil => cases hstat
        | cons c r =>
            rw [show entryAtPath [] (c :: r) = statEntryList [] c r from rfl,
              statEntryList] at hstat
            cases hstat
  | cons t ts2 =>
      rw [globHtmlList]
      rw [wfOutList] at hwf
      have hwt : wfOut t = true := by
        rcases Bool.and_eq_true_iff.mp hwf with ⟨h1, _⟩
        rcases Bool.and_eq_true_iff.mp h1 with ⟨h2, _⟩
        exact h2
      have hdistinct : ∀ x ∈ ts2, x.name ≠ t.name := by
        rcases Bool.and_eq_true_iff.mp hwf with ⟨h1, _⟩
        rcases Bool.and_eq_true_iff.mp h1 with ⟨_, h3⟩
        intro x hx
        have := List.all_eq_true.mp h3 x hx
        simpa using this
      have hwl : wfOutList ts2 = true := by
        rcases Bool.and_eq_true_iff.mp hwf with ⟨_, h2⟩
        exact h2
      constructor
      · intro hmem
        rcases List.mem_append.mp hmem with hm1 | hm1
        · rcases (glob_tree_iff t hwt p m).mp hm1 with ⟨⟨rest, hp, hstat⟩, hglob⟩
          subst hp
          refine ⟨?_, hglob⟩
          rw [show entryAtPath (t :: ts2) (t.name :: rest) =
              statEntryList (t :: ts2) t.name rest from rfl, statEntryList]
          rw [if_pos (by simp)]
          exact hstat
        · rcases (glob_list_iff ts2 hwl p m).mp hm1 with ⟨hstat, hglob⟩
          refine ⟨?_, hglob⟩
          cases p with
          | nil => cases hstat
          | cons c r =>
              rw [show entryAtPath ts2 (c :: r) = statEntryList ts2 c r from rfl] at hstat
              have hcne : t.name ≠ c := by
                intro hcc
                have hcmem := statEntryList_mem_names ts2 c r m hstat
                rcases List.mem_map.mp hcmem with ⟨x, hx, hxn⟩
                exact hdistinct x hx (hxn.trans hcc.symm)
              rw [show entryAtPath (t :: ts2) (c :: r) = statEntryList (t :: ts2) c r from rfl,
                statEntryList]
              rw [if_neg (by simpa using hcne)]
              exact hstat
      · rintro ⟨hstat, hglob⟩
        cases p with
        | nil => cases hstat
        | cons c r =>
            rw [show entryAtPath (t :: ts2) (c :: r) = statEntryList (t :: ts2) c r from rfl,
              statEntryList] at hstat
            by_cases hn : t.name == c
            · rw [if_pos hn] at hstat
              refine List.mem_append.mpr (Or.inl ?_)
              refine (glob_tree_iff t hwt (c :: r) m).mpr ⟨⟨r, ?_, hstat⟩, hglob⟩
              rw [beq_iff_eq.mp hn]
            · rw [if_neg hn] at hstat
              refine List.mem_append.mpr (Or.inr ?_)
              exact (glob_list_iff ts2 hwl (c :: r) m).mpr ⟨hstat, hglob⟩

end

/-! ### Claim C9 -/

/-- An output tree holding one genuine page plus a directory whose name
matches the glob: `_processFiles` mirrors a source directory named
`gallery.html` into the output (the `is_dir()` branch runs before the
suffix test), so this tree is reachable. -/
def cexOutChildren : List OutTree :=
  [OutTree.file "index.html" "<html></html>" 0,
    OutTree.dir "gallery.html" 86400 [OutTree.file "style.css" "body{}" 5]]

/-- C9 counterexample: `glob("**/*.html")` also yields directories
whose name matches `*.html`, and `_buildSitemap` emits entries for
them.  On a tree with one `*.html` file and a directory named
`gallery.html`, the sitemap has two entries, one of whose `loc` points
at the directory — which is no `*.html` file — so the sitemap does not
hold exactly one entry per `*.html` file with `loc` a file's path. -/
theorem sitemap_glob_dirs_cex :
    buildSitemapEntries "https://example.com" cexOutChildren =
      [{ loc := "https://example.com/index.html", lastmod := "1970-01-01" },
        { loc := "https://example.com/gallery.html", lastmod := "1970-01-02" }]
  ∧ fileAtPath cexOutChildren ["gallery.html"] = none
  ∧ ({ loc := "https://example.com/gallery.html", lastmod := "1970-01-02" : SitemapEntry } ∈
      buildSitemapEntries "https://example.com" cexOutChildren)
  ∧ (buildSitemapEntries "https://example.com" cexOutChildren).length ≠ 1 := by
  refine ⟨?_, ?_, ?_, ?_⟩ <;> decide

/-- C9 (amended): the sitemap holds exactly one entry per globbed
`*.html` entry — file or directory, since `Path.glob("**/*.html")`
yields matching directories too — anywhere under the output tree at
sitemap-build time: the entry list is the image of the glob
enumeration, which (for well-formed trees) contains a path exactly when
it leads to an entry whose name matches `*.html`; in particular every
`*.html` file still yields its entry.  Each entry's `loc` is
`rootUrl ++ "/" ++ <posix relative path>` and its `lastmod` is the
entry's mtime day rendered `YYYY-MM-DD` in UTC; the output is written
unminified to `outputRoot/sitemap.xml`. -/
theorem sitemap_entries_glob (rootUrl : String) (outputChildren : List OutTree)
    (render : List SitemapEntry → String) (hwf : wfOutList outputChildren = true) :
    buildSitemapEntries rootUrl outputChildren =
      (globHtmlList outputChildren).map
        (fun q => { loc := rootUrl ++ "/" ++ joinPosix q.1,
                    lastmod := formatUtcDate q.2 : SitemapEntry })
  ∧ (∀ p m, (p, m) ∈ globHtmlList outputChildren ↔
        entryAtPath outputChildren p = some m ∧ htmlGlobMatch (p.getLastD "") = true)
  ∧ (∀ p m, fileAtPath outputChildren p = some m →
        htmlGlobMatch (p.getLastD "") = true →
        (p, m) ∈ globHtmlList outputChildren)
  ∧ buildSitemapOutput render rootUrl outputChildren =
      (["sitemap.xml"], render (buildSitemapEntries rootUrl outputChildren)) := by
  refine ⟨rfl, fun p m => glob_list_iff outputChildren hwf p m, ?_, rfl⟩
  intro p m hf hg
  refine (glob_list_iff outputChildren hwf p m).mpr ⟨?_, hg⟩
  cases p with
  | nil =>
      rw [show fileAtPath outputChildren [] = none from rfl] at hf
      cases hf
  | cons c r =>
      rw [show fileAtPath outputChildren (c :: r) = statFileOnlyList outputChildren c r
        from rfl] at hf
      rw [show entryAtPath outputChildren (c :: r) = statEntryList outputChildren c r
        from rfl]
      exact statFileOnlyList_isEntry outputChildren c r m hf

theorem sitemap_entries_glob_witness :
    ((["gallery.html"], (86400 : Int)) ∈ globHtmlList cexOutChildren ↔
      entryAtPath cexOutChildren ["gallery.html"] = some 86400
        ∧ htmlGlobMatch ((["gallery.html"] : List String).getLastD "") = true)
  ∧ (["index.html"], (0 : Int)) ∈ globHtmlList cexOutChildren :=
  ⟨(sitemap_entries_glob "https://example.com" cexOutChildren (fun _ => "")
      (by decide)).2.1 ["gallery.html"] 86400,
   (sitemap_entries_glob "https://example.com" cexOutChildren (fun _ => "")
      (by decide)).2.2.1 ["index.html"] 0 (by decide) (by decide)⟩

end BuildSite
